import Mathlib

/-!
# Verification of the StockAnalyzer indicator engine

Shallow embedding of `src/stock_analyzer.py` (class `StockAnalyzer`).
Price sequences are modelled as `List α` over a linear ordered field
(instantiated at `ℚ` for the exact-arithmetic indicators and at `ℝ`
where the source takes square roots via `np.std` / `np.corrcoef`).
NumPy float arrays are modelled with exact field values; the IEEE
special values (inf / NaN) that the RSI division can produce are
modelled explicitly by the type `NF` below.  Fallible NumPy operations
(out-of-bounds array writes, broadcasting failures) are modelled with
`Option`.
-/

section MovingAverages

variable {α : Type} [LinearOrderedField α]

/-- `np.mean`: sum divided by length (over a nonempty list; `mean [] = 0`
here, standing in for NumPy's NaN warning case, which no guarded call path
reaches). -/
def mean (xs : List α) : α := xs.sum / (xs.length : α)

/-- `np.convolve(a, v, 'valid')`: output index `n` is the dot product of
`a[n : n+len(v)]` with the reversed kernel `v`. -/
def convolveValid (a v : List α) : List α :=
  (List.range (a.length + 1 - v.length)).map fun n =>
    ((List.range v.length).map fun m =>
      a.getD (n + m) 0 * v.getD (v.length - 1 - m) 0).sum

/-- `StockAnalyzer.calculate_sma`: guard short inputs, then convolve with the
uniform kernel `np.ones(window)/window`. -/
def calculate_sma (prices : List α) (window : ℕ) : List α :=
  if prices.length < window then []
  else convolveValid prices (List.replicate window ((window : α)⁻¹))

/-- Value of the `ema` array of `StockAnalyzer.calculate_ema` at index `i`:
positions below `window` hold the flat seed `np.mean(prices[:window])`, and
the loop fills `ema[i] = alpha*prices[i] + (1-alpha)*ema[i-1]` for
`window ≤ i < len(prices)`.  (The source's loop never runs with
`window = 0`; the `i = 0` fallback mirrors the seed.) -/
def emaVal (prices : List α) (window : ℕ) : ℕ → α
  | 0 => mean (prices.take window)
  | i + 1 =>
    if i + 1 < window then mean (prices.take window)
    else (2 / ((window : α) + 1)) * prices.getD (i + 1) 0
      + (1 - 2 / ((window : α) + 1)) * emaVal prices window i

/-- `StockAnalyzer.calculate_ema`: empty when `len(prices) < window`,
otherwise the array of `emaVal` values, same length as `prices`. -/
def calculate_ema (prices : List α) (window : ℕ) : List α :=
  if prices.length < window then []
  else (List.range prices.length).map (emaVal prices window)

/-- NumPy elementwise subtraction of two 1-d arrays, with shape
broadcasting: equal lengths subtract pointwise, a length-1 operand
broadcasts, and any other shape mismatch is a `ValueError` (`none`). -/
def npSub (a b : List α) : Option (List α) :=
  if a.length = b.length then some (List.zipWith (fun x y => x - y) a b)
  else if b.length = 1 then some (a.map fun x => x - b.getD 0 0)
  else if a.length = 1 then some (b.map fun y => a.getD 0 0 - y)
  else none

/-- `StockAnalyzer.calculate_macd`: the MACD line is the elementwise
difference of the short and long EMAs, and the signal line is the EMA of
the MACD line. -/
def calculate_macd (prices : List α) (short_window long_window signal_window : ℕ) :
    Option (List α × List α) :=
  (npSub (calculate_ema prices short_window) (calculate_ema prices long_window)).map
    fun macd => (macd, calculate_ema macd signal_window)

end MovingAverages

section RSI

/-- A NumPy float as produced by the RSI division: an exact finite value,
a signed infinity, or NaN. -/
inductive NF where
  | nan : NF
  | inf : NF
  | ninf : NF
  | fin : ℚ → NF
deriving DecidableEq

/-- IEEE-754 addition on `NF` (NaN absorbs; opposite infinities give NaN). -/
def NF.add : NF → NF → NF
  | nan, _ => nan
  | _, nan => nan
  | inf, ninf => nan
  | ninf, inf => nan
  | inf, _ => inf
  | _, inf => inf
  | ninf, _ => ninf
  | _, ninf => ninf
  | fin a, fin b => fin (a + b)

/-- IEEE-754 subtraction on `NF`. -/
def NF.sub : NF → NF → NF
  | nan, _ => nan
  | _, nan => nan
  | inf, inf => nan
  | ninf, ninf => nan
  | inf, _ => inf
  | ninf, _ => ninf
  | _, inf => ninf
  | _, ninf => inf
  | fin a, fin b => fin (a - b)

/-- IEEE-754 division on `NF`: finite / 0 is a signed infinity (NaN for
0 / 0, NumPy's `invalid value` case), finite / ±∞ is 0, ±∞ / ±∞ is NaN. -/
def NF.div : NF → NF → NF
  | nan, _ => nan
  | _, nan => nan
  | inf, inf => nan
  | inf, ninf => nan
  | ninf, inf => nan
  | ninf, ninf => nan
  | inf, fin b => if b < 0 then ninf else inf
  | ninf, fin b => if b < 0 then inf else ninf
  | fin _, inf => fin 0
  | fin _, ninf => fin 0
  | fin a, fin b =>
    if b = 0 then (if a = 0 then nan else if a < 0 then ninf else inf)
    else fin (a / b)

/-- `np.diff(prices)`: consecutive differences, length `len(prices) - 1`. -/
def diffL (prices : List ℚ) : List ℚ :=
  List.zipWith (fun a b => b - a) prices (prices.drop 1)

/-- `np.where(deltas > 0, deltas, 0)`. -/
def gainsOf (prices : List ℚ) : List ℚ :=
  (diffL prices).map fun d => if 0 < d then d else 0

/-- `np.where(deltas < 0, -deltas, 0)`. -/
def lossesOf (prices : List ℚ) : List ℚ :=
  (diffL prices).map fun d => if d < 0 then -d else 0

/-- The `avg_gain` array of `calculate_rsi` as a function of the index,
over the gains array: zero below `window`, seeded at `window` with
`np.mean(gains[:window])`, then the Wilder recurrence
`avg_gain[i] = (avg_gain[i-1]*(window-1) + gains[i-1]) / window`. -/
def wilderAvg (gs : List ℚ) (window : ℕ) : ℕ → ℚ
  | 0 => if window = 0 then mean (gs.take window) else 0
  | i + 1 =>
    if i + 1 < window then 0
    else if i + 1 = window then mean (gs.take window)
    else (wilderAvg gs window i * ((window : ℚ) - 1) + gs.getD i 0) / (window : ℚ)

/-- Entry `i` of the `rsi` array: `100 - 100/(1 + rs)` with
`rs = avg_gain / avg_loss`, all arrays elementwise in IEEE arithmetic. -/
def rsiAt (prices : List ℚ) (window i : ℕ) : NF :=
  let rs := NF.div (NF.fin (wilderAvg (gainsOf prices) window i))
    (NF.fin (wilderAvg (lossesOf prices) window i))
  NF.sub (NF.fin 100) (NF.div (NF.fin 100) (NF.add (NF.fin 1) rs))

/-- `StockAnalyzer.calculate_rsi`: short inputs return an empty array; the
seed write `avg_gain[window] = ...` into an array of length `len(prices)`
is an `IndexError` (`none`) unless `window < len(prices)`; all remaining
index accesses of the loop are in bounds. -/
def calculate_rsi (prices : List ℚ) (window : ℕ) : Option (List NF) :=
  if prices.length < window then some []
  else if window < prices.length then
    some ((List.range prices.length).map (rsiAt prices window))
  else none

end RSI

section Bollinger

/-- `np.std(xs)`: population standard deviation, the square root of the
mean of squared deviations from the mean. -/
noncomputable def npStd (xs : List ℝ) : ℝ :=
  Real.sqrt (mean (xs.map fun v => (v - mean xs) ^ 2))

/-- The `rolling_std` array of `calculate_bollinger_bands`:
`np.std(prices[i:i+window])` for each start offset `i`. -/
noncomputable def rollingStd (prices : List ℝ) (window : ℕ) : List ℝ :=
  (List.range (prices.length - window + 1)).map fun i =>
    npStd ((prices.drop i).take window)

/-- `StockAnalyzer.calculate_bollinger_bands`: `(sma, upper_band, lower_band)`
with `upper_band = sma + rolling_std * num_std` and
`lower_band = sma - rolling_std * num_std`, elementwise. -/
noncomputable def calculate_bollinger_bands (prices : List ℝ) (window : ℕ)
    (num_std : ℝ) : List ℝ × List ℝ × List ℝ :=
  if prices.length < window then ([], [], [])
  else
    (calculate_sma prices window,
     List.zipWith (fun s r => s + r * num_std) (calculate_sma prices window)
       (rollingStd prices window),
     List.zipWith (fun s r => s - r * num_std) (calculate_sma prices window)
       (rollingStd prices window))

end Bollinger

section Correlation

/-- Membership test and lookup for the analyzer's `self.stocks` dict
(`symbol in self.stocks` followed by `self.stocks[symbol]`), with the
stored closing-price series as the value. -/
def stockLookup (stocks : List (String × List ℝ)) (s : String) :
    Option (List ℝ) :=
  (stocks.find? fun p => p.1 == s).map fun p => p.2

/-- First pass of `calculate_correlation_matrix`: walk the requested
symbols in order, collecting `price_data[symbol] = prices`; a symbol that
is not found or has empty prices aborts with `None`. -/
def firstPass (stocks : List (String × List ℝ)) :
    List String → Option (List (String × List ℝ))
  | [] => some []
  | s :: rest =>
    match stockLookup stocks s with
    | none => none
    | some ps =>
      if ps.length = 0 then none
      else (firstPass stocks rest).map fun acc => (s, ps) :: acc

/-- `min_length`: the minimum collected series length (the loop's running
minimum starting from infinity; `0` only for an empty collection, which the
guarded call path never produces). -/
def minLength (pd : List (String × List ℝ)) : ℕ :=
  ((pd.map fun p => p.2.length).min?).getD 0

/-- Daily simple returns `np.diff(t) / t[:-1]` of a trimmed series. -/
noncomputable def dailyReturns (t : List ℝ) : List ℝ :=
  List.zipWith (fun a b => (b - a) / a) t (t.drop 1)

/-- Second pass: trim every collected series to the most recent
`min_length` observations and take daily returns, keeping symbol order. -/
noncomputable def alignedReturns (stocks : List (String × List ℝ))
    (symbols : List String) : Option (List (String × List ℝ)) :=
  (firstPass stocks symbols).map fun pd =>
    pd.map fun p => (p.1, dailyReturns (p.2.drop (p.2.length - minLength pd)))

/-- `np.mean` over the reals. -/
noncomputable def meanR (xs : List ℝ) : ℝ := xs.sum / (xs.length : ℝ)

/-- The off-diagonal entry of `np.cov(x, y)` (sample covariance,
denominator `N - 1`). -/
noncomputable def covS (x y : List ℝ) : ℝ :=
  (List.zipWith (fun a b => (a - meanR x) * (b - meanR y)) x y).sum /
    ((x.length : ℝ) - 1)

/-- `np.corrcoef(x, y)[0, 1]`: the covariance normalised by the two
standard deviations, clipped into `[-1, 1]`. -/
noncomputable def corrcoef01 (x y : List ℝ) : ℝ :=
  max (-1) (min 1 (covS x y / (Real.sqrt (covS x x) * Real.sqrt (covS y y))))

/-- The `corr_matrix` double loop over `symbols_list`, as a list of rows. -/
noncomputable def corrMatrix (ar : List (String × List ℝ)) : List (List ℝ) :=
  (List.range ar.length).map fun i =>
    (List.range ar.length).map fun j =>
      corrcoef01 (ar.getD i ("", [])).2 (ar.getD j ("", [])).2

/-- `StockAnalyzer.calculate_correlation_matrix`: `None` for fewer than two
symbols or on missing/empty data, otherwise the ordered symbol list with
the Pearson correlation matrix.  (With distinct requested symbols the
source's dict insertion order is exactly the traversal order kept here.) -/
noncomputable def calculate_correlation_matrix
    (stocks : List (String × List ℝ)) (symbols : List String) :
    Option (List String × List (List ℝ)) :=
  if symbols.length < 2 then none
  else
    match alignedReturns stocks symbols with
    | none => none
    | some ar => some (ar.map (fun p => p.1), corrMatrix ar)

end Correlation

example : calculate_rsi [1, 2] 2 = none := by
  norm_num [calculate_rsi]

example : calculate_rsi [1, 1, 1] 2 =
    some [NF.nan, NF.nan, NF.nan] := by
  norm_num [calculate_rsi, rsiAt, wilderAvg, gainsOf, lossesOf, diffL, mean,
    List.range_succ, NF.div, NF.add, NF.sub]

example : calculate_rsi [1, 2, 1, 3] 2 =
    some [NF.nan, NF.nan, NF.fin 50, NF.fin (250/3)] := by
  norm_num [calculate_rsi, rsiAt, wilderAvg, gainsOf, lossesOf, diffL, mean,
    List.range_succ, NF.div, NF.add, NF.sub]

example : calculate_correlation_matrix [("A", [1, 2])] ["A"] = none := by
  norm_num [calculate_correlation_matrix]

example : calculate_correlation_matrix [("A", [1, 2])] ["A", "Z"] = none := by
  norm_num [calculate_correlation_matrix, alignedReturns, firstPass, stockLookup,
    List.find?, show (("A" : String) == "Z") = false from rfl]

example : calculate_correlation_matrix [("A", [1, 2]), ("B", [])] ["A", "B"] = none := by
  norm_num [calculate_correlation_matrix, alignedReturns, firstPass, stockLookup,
    List.find?, show (("A" : String) == "B") = false from rfl,
    show (("B" : String) == "B") = true from rfl]

example : calculate_sma (α := ℚ) [1, 2, 3] 2 = [3/2, 5/2] := by
  norm_num [calculate_sma, convolveValid, List.range_succ]

example : calculate_ema (α := ℚ) [10, 10, 10, 10, 10] 3 = [10, 10, 10, 10, 10] := by
  norm_num [calculate_ema, emaVal, mean, List.range_succ]

example : calculate_macd (α := ℚ) [1, 2] 2 3 9 = none := by
  norm_num [calculate_macd, calculate_ema, npSub]

example : calculate_macd (α := ℚ) [1] 2 3 9 = some ([], []) := by
  norm_num [calculate_macd, calculate_ema, npSub, List.range_succ]

/-! ## Helper lemmas -/

lemma getD_range_map {β : Type} (f : ℕ → β) (d : β) (k i : ℕ) (h : i < k) :
    ((List.range k).map f).getD i d = f i := by
  simp [List.getD, List.getElem?_map, List.getElem?_range, h]

lemma getD_replicate_lt {β : Type} (n i : ℕ) (a d : β) (h : i < n) :
    (List.replicate n a).getD i d = a := by
  simp [List.getD, List.getElem?_replicate, h]

lemma length_slice {β : Type} (p : List β) (n w : ℕ) (h : n + w ≤ p.length) :
    ((p.drop n).take w).length = w := by
  simp [List.length_take, List.length_drop]
  omega

section Helpers

variable {α : Type} [LinearOrderedField α]

lemma sum_range_getD_slice (p : List α) (n : ℕ) :
    ∀ w, n + w ≤ p.length →
      ((List.range w).map fun m => p.getD (n + m) 0).sum
        = ((p.drop n).take w).sum := by
  intro w
  induction w with
  | zero => simp
  | succ w ih =>
    intro h
    have hw : n + w ≤ p.length := by omega
    have hnw : n + w < p.length := by omega
    rw [List.range_succ, List.map_append, List.sum_append,
      List.take_succ, List.sum_append, ih hw]
    have hget : (p.drop n)[w]? = some p[n + w] := by
      rw [List.getElem?_drop, List.getElem?_eq_getElem hnw]
    have h1 : p.getD (n + w) 0 = p[n + w] := List.getD_eq_getElem p 0 hnw
    simp [hget, h1, List.getElem?_eq_getElem hnw]

lemma calculate_sma_length (p : List α) (w : ℕ) (h : w ≤ p.length) :
    (calculate_sma p w).length = p.length + 1 - w := by
  rw [calculate_sma, if_neg (by omega)]
  simp [convolveValid]

lemma calculate_sma_getD (p : List α) (w : ℕ) (hw : 1 ≤ w) (h : w ≤ p.length)
    (i : ℕ) (hi : i < p.length + 1 - w) :
    (calculate_sma p w).getD i 0 = mean ((p.drop i).take w) := by
  rw [calculate_sma, if_neg (by omega)]
  rw [convolveValid]
  have hlen : p.length + 1 - (List.replicate w ((w : α)⁻¹)).length
      = p.length + 1 - w := by simp
  rw [show (List.range (p.length + 1 - (List.replicate w ((w : α)⁻¹)).length))
      = List.range (p.length + 1 - w) by rw [hlen]]
  rw [getD_range_map _ _ _ _ hi]
  have hterm : ((List.range (List.replicate w ((w : α)⁻¹)).length).map fun m =>
        p.getD (i + m) 0 * (List.replicate w ((w : α)⁻¹)).getD
          ((List.replicate w ((w : α)⁻¹)).length - 1 - m) 0)
      = (List.range w).map fun m => p.getD (i + m) 0 * (w : α)⁻¹ := by
    rw [show (List.replicate w ((w : α)⁻¹)).length = w by simp]
    refine List.map_congr_left ?_
    intro m hm
    rw [List.mem_range] at hm
    rw [getD_replicate_lt _ _ _ _ (by omega)]
  rw [hterm]
  have hiw : i + w ≤ p.length := by omega
  have hmul : ((List.range w).map fun m => p.getD (i + m) 0 * (w : α)⁻¹).sum
      = ((List.range w).map fun m => p.getD (i + m) 0).sum * (w : α)⁻¹ := by
    rw [← List.sum_map_mul_right]
  rw [hmul, sum_range_getD_slice p i w hiw, mean, length_slice p i w hiw,
    div_eq_mul_inv]

end Helpers

/-! ## Claim theorems -/

/-- C1: for every price sequence and every `window ≥ 1`, `calculate_sma`
returns a sequence of length `max 0 (len - window + 1)` whose entry at
each valid offset `i` is the arithmetic mean of `prices[i : i+window]`;
in particular a too-short input yields the empty sequence, not an error. -/
theorem sma_spec {α : Type} [LinearOrderedField α] (prices : List α)
    (window : ℕ) (hw : 1 ≤ window) :
    ((calculate_sma prices window).length : ℤ)
        = max 0 ((prices.length : ℤ) - (window : ℤ) + 1)
      ∧ (∀ i, i < (calculate_sma prices window).length →
          (calculate_sma prices window).getD i 0
            = mean ((prices.drop i).take window))
      ∧ (prices.length < window → calculate_sma prices window = []) := by
  by_cases hlen : prices.length < window
  · have hempty : calculate_sma prices window = [] := by
      rw [calculate_sma, if_pos hlen]
    refine ⟨?_, ?_, fun _ => hempty⟩
    · rw [hempty]
      simp
      omega
    · intro i hi
      rw [hempty] at hi
      simp at hi
  · push_neg at hlen
    have hL := calculate_sma_length prices window hlen
    refine ⟨?_, ?_, fun h => absurd h (by omega)⟩
    · rw [hL]
      have : (0 : ℤ) ≤ (prices.length : ℤ) - (window : ℤ) + 1 := by
        have := hlen
        omega
      rw [max_eq_right this]
      omega
    · intro i hi
      rw [hL] at hi
      exact calculate_sma_getD prices window hw hlen i hi

/-- C1 witness: the theorem instantiated at `prices = [1, 2, 3]`,
`window = 2` over `ℚ`. -/
theorem sma_spec_witness :
    (1 ≤ 2)
      ∧ ((calculate_sma (α := ℚ) [1, 2, 3] 2).length : ℤ)
          = max 0 ((([1, 2, 3] : List ℚ).length : ℤ) - (2 : ℤ) + 1) :=
  ⟨by norm_num, (sma_spec (α := ℚ) [1, 2, 3] 2 (by norm_num)).1⟩

section EmaHelpers

variable {α : Type} [LinearOrderedField α]

lemma calculate_ema_nil (s : ℕ) : calculate_ema ([] : List α) s = [] := by
  rw [calculate_ema]
  split <;> simp

lemma calculate_ema_length (p : List α) (w : ℕ) (h : w ≤ p.length) :
    (calculate_ema p w).length = p.length := by
  rw [calculate_ema, if_neg (by omega)]
  simp

lemma calculate_ema_getD (p : List α) (w : ℕ) (h : w ≤ p.length) (i : ℕ)
    (hi : i < p.length) :
    (calculate_ema p w).getD i 0 = emaVal p w i := by
  rw [calculate_ema, if_neg (by omega), getD_range_map _ _ _ _ hi]

end EmaHelpers

/-- C2: for `1 ≤ window ≤ len(prices)`, `calculate_ema` returns a
sequence of the same length as `prices`, whose first `window` entries all
equal the mean of `prices[0:window]` (flat seed) and whose entry at every
`i ≥ window` follows the recurrence
`ema[i] = alpha*prices[i] + (1-alpha)*ema[i-1]` with
`alpha = 2/(window+1)`; a shorter input gives the empty sequence. -/
theorem ema_spec {α : Type} [LinearOrderedField α] (prices : List α)
    (window : ℕ) (hw : 1 ≤ window) :
    (prices.length < window → calculate_ema prices window = [])
      ∧ (window ≤ prices.length →
          (calculate_ema prices window).length = prices.length
          ∧ (∀ i, i < window →
              (calculate_ema prices window).getD i 0 = mean (prices.take window))
          ∧ (∀ i, window ≤ i → i < prices.length →
              (calculate_ema prices window).getD i 0
                = (2 / ((window : α) + 1)) * prices.getD i 0
                  + (1 - 2 / ((window : α) + 1))
                    * (calculate_ema prices window).getD (i - 1) 0)) := by
  constructor
  · intro h
    rw [calculate_ema, if_pos h]
  · intro h
    refine ⟨calculate_ema_length prices window h, ?_, ?_⟩
    · intro i hiw
      have hi : i < prices.length := lt_of_lt_of_le hiw h
      rw [calculate_ema_getD prices window h i hi]
      cases i with
      | zero => rfl
      | succ j => simp [emaVal, hiw]
    · intro i hwi hi
      obtain ⟨j, rfl⟩ : ∃ j, i = j + 1 := ⟨i - 1, by omega⟩
      rw [show j + 1 - 1 = j from rfl,
        calculate_ema_getD prices window h _ hi,
        calculate_ema_getD prices window h j (by omega)]
      have hnot : ¬ (j + 1 < window) := by omega
      simp [emaVal, hnot]

/-- C2 witness: the theorem instantiated at constant prices
`[10, 10, 10, 10, 10]` with `window = 3` over `ℚ`. -/
theorem ema_spec_witness :
    (1 ≤ 3)
      ∧ (calculate_ema (α := ℚ) [10, 10, 10, 10, 10] 3).length
          = ([10, 10, 10, 10, 10] : List ℚ).length :=
  ⟨by norm_num,
    ((ema_spec (α := ℚ) [10, 10, 10, 10, 10] 3 (by norm_num)).2 (by norm_num)).1⟩

/-- C6 counterexample: with `short = 2 ≤ len(prices) = 2 < 3 = long`, the
short EMA has length 2 while the long EMA is empty, and their elementwise
subtraction is a broadcasting error — `calculate_macd` does not return a
degenerate pair. -/
theorem macd_mid_length_error : calculate_macd (α := ℚ) [1, 2] 2 3 9 = none := by
  norm_num [calculate_macd, calculate_ema, npSub]

/-- C6 amended: for `len(prices) < short` the MACD and signal lines are
both empty with no error and no extra edge-case handling; but for
`short ≤ len(prices) < long` (with at least two prices) the subtraction of
the length-`len` short EMA and the empty long EMA raises a broadcasting
error instead of returning a degenerate pair. -/
theorem macd_short_input {α : Type} [LinearOrderedField α] (prices : List α)
    (short_window long_window signal_window : ℕ)
    (hs : 1 ≤ short_window) (hsl : short_window ≤ long_window) :
    (prices.length < short_window →
      calculate_macd prices short_window long_window signal_window
        = some ([], []))
      ∧ (short_window ≤ prices.length → prices.length < long_window →
          2 ≤ prices.length →
          calculate_macd prices short_window long_window signal_window
            = none) := by
  constructor
  · intro h
    have h2 : prices.length < long_window := lt_of_lt_of_le h hsl
    rw [calculate_macd,
      show calculate_ema prices short_window = [] from by
        rw [calculate_ema, if_pos h],
      show calculate_ema prices long_window = [] from by
        rw [calculate_ema, if_pos h2]]
    simp [npSub, calculate_ema_nil]
  · intro h1 h2 h3
    rw [calculate_macd,
      show calculate_ema prices long_window = [] from by
        rw [calculate_ema, if_pos h2]]
    have hshort : (calculate_ema prices short_window).length = prices.length :=
      calculate_ema_length prices short_window h1
    rw [npSub, if_neg (by rw [hshort]; simp only [List.length_nil]; omega),
      if_neg (by norm_num), if_neg (by rw [hshort]; omega)]
    rfl

/-- C6 witness: empty result below the short window, broadcasting error in
the middle regime, at concrete inputs over `ℚ`. -/
theorem macd_short_input_witness :
    calculate_macd (α := ℚ) [1] 2 3 9 = some ([], [])
      ∧ calculate_macd (α := ℚ) [5, 6, 7] 3 5 9 = none :=
  ⟨(macd_short_input (α := ℚ) [1] 2 3 9 (by norm_num) (by norm_num)).1
      (by norm_num),
   (macd_short_input (α := ℚ) [5, 6, 7] 3 5 9 (by norm_num) (by norm_num)).2
      (by norm_num) (by norm_num) (by norm_num)⟩

section RsiHelpers

lemma getD_nonneg (l : List ℚ) (i : ℕ) (h : ∀ x ∈ l, 0 ≤ x) :
    0 ≤ l.getD i 0 := by
  by_cases hi : i < l.length
  · rw [List.getD_eq_getElem l 0 hi]
    exact h _ (List.getElem_mem hi)
  · rw [List.getD_eq_default l 0 (by omega)]

lemma gainsOf_nonneg (p : List ℚ) : ∀ x ∈ gainsOf p, 0 ≤ x := by
  intro x hx
  rw [gainsOf, List.mem_map] at hx
  obtain ⟨d, _, rfl⟩ := hx
  split <;> [linarith; rfl]

lemma lossesOf_nonneg (p : List ℚ) : ∀ x ∈ lossesOf p, 0 ≤ x := by
  intro x hx
  rw [lossesOf, List.mem_map] at hx
  obtain ⟨d, _, rfl⟩ := hx
  split <;> [linarith; rfl]

lemma mean_nonneg_of (xs : List ℚ) (h : ∀ x ∈ xs, 0 ≤ x) : 0 ≤ mean xs :=
  div_nonneg (List.sum_nonneg h) (Nat.cast_nonneg _)

lemma wilderAvg_nonneg (gs : List ℚ) (window : ℕ) (hw : 1 ≤ window)
    (hgs : ∀ x ∈ gs, 0 ≤ x) : ∀ i, 0 ≤ wilderAvg gs window i := by
  have hmean : 0 ≤ mean (gs.take window) :=
    mean_nonneg_of _ fun x hx => hgs x (List.mem_of_mem_take hx)
  intro i
  induction i with
  | zero =>
    rw [wilderAvg, if_neg (by omega)]
  | succ j ih =>
    rw [wilderAvg]
    split
    · rfl
    · split
      · exact hmean
      · have h1 : (0 : ℚ) ≤ (window : ℚ) - 1 := by
          have : (1 : ℚ) ≤ (window : ℚ) := by exact_mod_cast hw
          linarith
        have h2 : 0 ≤ gs.getD j 0 := getD_nonneg gs j hgs
        have h3 : (0 : ℚ) ≤ (window : ℚ) := Nat.cast_nonneg _
        exact div_nonneg (by nlinarith [ih]) h3

lemma rsiAt_both_zero (p : List ℚ) (w i : ℕ)
    (hl : wilderAvg (lossesOf p) w i = 0)
    (hg : wilderAvg (gainsOf p) w i = 0) :
    rsiAt p w i = NF.nan := by
  simp [rsiAt, hl, hg, NF.div, NF.add, NF.sub]

lemma rsiAt_loss_zero (p : List ℚ) (w i : ℕ)
    (hl : wilderAvg (lossesOf p) w i = 0)
    (hg : 0 < wilderAvg (gainsOf p) w i) :
    rsiAt p w i = NF.fin 100 := by
  have hdiv : NF.div (NF.fin (wilderAvg (gainsOf p) w i))
      (NF.fin (wilderAvg (lossesOf p) w i)) = NF.inf := by
    rw [hl, NF.div, if_pos rfl, if_neg (ne_of_gt hg), if_neg (not_lt.mpr hg.le)]
  simp only [rsiAt, hdiv]
  show NF.sub (NF.fin 100) (NF.div (NF.fin 100) (NF.add (NF.fin 1) NF.inf))
      = NF.fin 100
  norm_num [NF.add, NF.div, NF.sub]

lemma rsiAt_loss_pos (p : List ℚ) (w i : ℕ) (hw : 1 ≤ w)
    (hl : 0 < wilderAvg (lossesOf p) w i) :
    rsiAt p w i = NF.fin (100 - 100 /
      (1 + wilderAvg (gainsOf p) w i / wilderAvg (lossesOf p) w i)) := by
  have hg : 0 ≤ wilderAvg (gainsOf p) w i :=
    wilderAvg_nonneg _ w hw (gainsOf_nonneg p) i
  have hratio : (0 : ℚ) ≤ wilderAvg (gainsOf p) w i / wilderAvg (lossesOf p) w i :=
    div_nonneg hg hl.le
  have hne : (1 : ℚ) + wilderAvg (gainsOf p) w i / wilderAvg (lossesOf p) w i ≠ 0 := by
    positivity
  simp [rsiAt, NF.div, NF.add, NF.sub, ne_of_gt hl, hne]

end RsiHelpers

/-- C3 (code bug): when `len(prices) = window` the short-input guard
passes, but the seed write `avg_gain[window] = ...` indexes one past the
end of the length-`window` array `avg_gain`, so `calculate_rsi` raises an
IndexError instead of returning a same-length sequence; shown here at the
default `window = 14` with fourteen prices. -/
theorem rsi_seed_write_out_of_bounds :
    calculate_rsi (List.replicate 14 1) 14 = none := by
  norm_num [calculate_rsi]

/-- C4 counterexample: for constant prices both smoothed averages are `0`
at index `2 = window`, and the RSI entry there is NaN (the `0/0` ratio
propagates through `100 - 100/(1+rs)`), not the defined value `100`. -/
theorem rsi_both_zero_gives_nan :
    wilderAvg (lossesOf [1, 1, 1]) 2 2 = 0
      ∧ calculate_rsi [1, 1, 1] 2 = some [NF.nan, NF.nan, NF.nan] := by
  constructor
  · norm_num [wilderAvg, lossesOf, diffL, mean]
  · norm_num [calculate_rsi, rsiAt, wilderAvg, gainsOf, lossesOf, diffL, mean,
      List.range_succ, NF.div, NF.add, NF.sub]

/-- C4 amended: at an index `i ≥ window` where the smoothed average loss
is `0` and the smoothed average gain is nonzero, the RSI entry is the
defined value `100` — but this arises from the implementation-defined
`x/0 = inf` collapse inside `100 - 100/(1+rs)`, not from an explicit
special case, and when the average gain is also `0` the entry is NaN
rather than `100`. -/
theorem rsi_avg_loss_zero (prices : List ℚ) (window i : ℕ)
    (hw : 1 ≤ window) (hwin : window < prices.length) (hi : i < prices.length)
    (hiw : window ≤ i)
    (hloss : wilderAvg (lossesOf prices) window i = 0)
    (hgain : wilderAvg (gainsOf prices) window i ≠ 0) :
    ∃ l, calculate_rsi prices window = some l
      ∧ l.getD i NF.nan = NF.fin 100 := by
  refine ⟨_, by rw [calculate_rsi, if_neg (by omega), if_pos hwin], ?_⟩
  rw [getD_range_map _ _ _ _ hi]
  have hpos : 0 < wilderAvg (gainsOf prices) window i :=
    lt_of_le_of_ne (wilderAvg_nonneg _ window hw (gainsOf_nonneg prices) i)
      (Ne.symm hgain)
  exact rsiAt_loss_zero prices window i hloss hpos

/-- C4 witness: strictly increasing prices `[1, 2, 3]` with `window = 2`
have zero average loss and positive average gain at index 2, and the RSI
entry there is exactly 100. -/
theorem rsi_avg_loss_zero_witness :
    ∃ l, calculate_rsi [1, 2, 3] 2 = some l
      ∧ l.getD 2 NF.nan = NF.fin 100 :=
  rsi_avg_loss_zero [1, 2, 3] 2 2 (by norm_num) (by norm_num) (by norm_num)
    (by norm_num)
    (by norm_num [wilderAvg, lossesOf, diffL, mean])
    (by norm_num [wilderAvg, gainsOf, diffL, mean])

/-- C5: every finite (non-NaN, non-infinite) entry that `calculate_rsi`
produces lies in the closed interval `[0, 100]`: the smoothed averages
stay non-negative through the Wilder recurrence, so `rs ≥ 0` and
`100 - 100/(1+rs)` is in `[0, 100]`. -/
theorem rsi_range (prices : List ℚ) (window : ℕ) (hw : 1 ≤ window)
    (l : List NF) (hl : calculate_rsi prices window = some l) :
    ∀ x ∈ l, ∀ q : ℚ, x = NF.fin q → 0 ≤ q ∧ q ≤ 100 := by
  rw [calculate_rsi] at hl
  by_cases h1 : prices.length < window
  · rw [if_pos h1] at hl
    obtain rfl : ([] : List NF) = l := Option.some.inj hl
    intro x hx
    exact absurd hx (List.not_mem_nil x)
  · rw [if_neg h1] at hl
    by_cases h2 : window < prices.length
    · rw [if_pos h2] at hl
      obtain rfl := Option.some.inj hl
      intro x hx q hq
      rw [List.mem_map] at hx
      obtain ⟨i, _, rfl⟩ := hx
      have hg : 0 ≤ wilderAvg (gainsOf prices) window i :=
        wilderAvg_nonneg _ window hw (gainsOf_nonneg prices) i
      have hlo : 0 ≤ wilderAvg (lossesOf prices) window i :=
        wilderAvg_nonneg _ window hw (lossesOf_nonneg prices) i
      rcases eq_or_lt_of_le hlo with hlo0 | hlopos
      · rcases eq_or_lt_of_le hg with hg0 | hgpos
        · rw [rsiAt_both_zero prices window i hlo0.symm hg0.symm] at hq
          exact absurd hq (by simp)
        · rw [rsiAt_loss_zero prices window i hlo0.symm hgpos] at hq
          rw [NF.fin.injEq] at hq
          subst hq
          norm_num
      · rw [rsiAt_loss_pos prices window i hw hlopos] at hq
        set r := wilderAvg (gainsOf prices) window i /
          wilderAvg (lossesOf prices) window i with hr
        have hr0 : (0 : ℚ) ≤ r := div_nonneg hg hlopos.le
        rw [NF.fin.injEq] at hq
        subst hq
        have hge1 : (1 : ℚ) ≤ 1 + r := by linarith
        have hle : 100 / (1 + r) ≤ 100 := div_le_self (by norm_num) hge1
        have hge : (0 : ℚ) ≤ 100 / (1 + r) :=
          div_nonneg (by norm_num) (by linarith)
        constructor <;> linarith
    · rw [if_neg h2] at hl
      exact absurd hl (by simp)

/-- C5 witness: at `prices = [1, 2, 1]`, `window = 2` the RSI entry at
index 2 is the finite value 50, which the theorem places in `[0, 100]`. -/
theorem rsi_range_witness : 0 ≤ (50 : ℚ) ∧ (50 : ℚ) ≤ 100 :=
  rsi_range [1, 2, 1] 2 (by norm_num) [NF.nan, NF.nan, NF.fin 50]
    (by norm_num [calculate_rsi, rsiAt, wilderAvg, gainsOf, lossesOf, diffL,
      mean, List.range_succ, NF.div, NF.add, NF.sub])
    (NF.fin 50) (by norm_num) 50 rfl

section BollingerHelpers

lemma getD_zipWith {β : Type} (f : β → β → β) (a b : List β) (d : β) (i : ℕ)
    (ha : i < a.length) (hb : i < b.length) :
    (List.zipWith f a b).getD i d = f (a.getD i d) (b.getD i d) := by
  have hz : i < (List.zipWith f a b).length := by
    rw [List.length_zipWith]
    omega
  rw [List.getD_eq_getElem _ _ hz, List.getD_eq_getElem _ _ ha,
    List.getD_eq_getElem _ _ hb, List.getElem_zipWith]

lemma rollingStd_length (p : List ℝ) (w : ℕ) :
    (rollingStd p w).length = p.length - w + 1 := by
  simp [rollingStd]

lemma rollingStd_getD_nonneg (p : List ℝ) (w i : ℕ) :
    0 ≤ (rollingStd p w).getD i 0 := by
  by_cases hi : i < p.length - w + 1
  · rw [rollingStd, getD_range_map _ _ _ _ hi]
    exact Real.sqrt_nonneg _
  · rw [List.getD_eq_default]
    rw [rollingStd_length]
    omega

end BollingerHelpers

/-- C7 amended: for `1 ≤ window ≤ len(prices)` and `num_std ≥ 0`,
`calculate_bollinger_bands` returns three sequences of equal length with
`lower_band[i] ≤ sma[i] ≤ upper_band[i]` at every index, and a band
coincides with the SMA exactly when `num_std = 0` or the rolling
population standard deviation at that index is `0` (the original claim's
"equality only when the standard deviation is 0" fails at `num_std = 0`). -/
theorem bollinger_band_order (prices : List ℝ) (window : ℕ) (num_std : ℝ)
    (hw : 1 ≤ window) (hlen : window ≤ prices.length) (hstd : 0 ≤ num_std) :
    ((calculate_bollinger_bands prices window num_std).1.length
        = (calculate_bollinger_bands prices window num_std).2.1.length
      ∧ (calculate_bollinger_bands prices window num_std).1.length
        = (calculate_bollinger_bands prices window num_std).2.2.length)
    ∧ ∀ i, i < (calculate_bollinger_bands prices window num_std).1.length →
        ((calculate_bollinger_bands prices window num_std).2.2.getD i 0
            ≤ (calculate_bollinger_bands prices window num_std).1.getD i 0
          ∧ (calculate_bollinger_bands prices window num_std).1.getD i 0
            ≤ (calculate_bollinger_bands prices window num_std).2.1.getD i 0)
        ∧ ((calculate_bollinger_bands prices window num_std).1.getD i 0
              = (calculate_bollinger_bands prices window num_std).2.1.getD i 0
            ↔ num_std = 0 ∨ (rollingStd prices window).getD i 0 = 0)
        ∧ ((calculate_bollinger_bands prices window num_std).2.2.getD i 0
              = (calculate_bollinger_bands prices window num_std).1.getD i 0
            ↔ num_std = 0 ∨ (rollingStd prices window).getD i 0 = 0) := by
  have hif : calculate_bollinger_bands prices window num_std
      = (calculate_sma prices window,
         List.zipWith (fun s r => s + r * num_std) (calculate_sma prices window)
           (rollingStd prices window),
         List.zipWith (fun s r => s - r * num_std) (calculate_sma prices window)
           (rollingStd prices window)) := by
    rw [calculate_bollinger_bands, if_neg (by omega)]
  have hsl : (calculate_sma prices window).length = prices.length + 1 - window :=
    calculate_sma_length prices window hlen
  have hrl : (rollingStd prices window).length = prices.length - window + 1 :=
    rollingStd_length prices window
  have hlens : (calculate_sma prices window).length
      = (rollingStd prices window).length := by omega
  rw [hif]
  dsimp only
  refine ⟨⟨?_, ?_⟩, ?_⟩
  · rw [List.length_zipWith]
    omega
  · rw [List.length_zipWith]
    omega
  · intro i hi
    have hia : i < (calculate_sma prices window).length := hi
    have hib : i < (rollingStd prices window).length := by omega
    rw [getD_zipWith _ _ _ _ i hia hib, getD_zipWith _ _ _ _ i hia hib]
    have hr : 0 ≤ (rollingStd prices window).getD i 0 :=
      rollingStd_getD_nonneg prices window i
    have hrc : 0 ≤ (rollingStd prices window).getD i 0 * num_std :=
      mul_nonneg hr hstd
    refine ⟨⟨by linarith, by linarith⟩, ?_, ?_⟩
    · constructor
      · intro h
        have h0 : (rollingStd prices window).getD i 0 * num_std = 0 := by linarith
        rcases mul_eq_zero.mp h0 with h1 | h1
        · exact Or.inr h1
        · exact Or.inl h1
      · intro h
        rcases h with h1 | h1 <;> rw [h1] <;> ring
    · constructor
      · intro h
        have h0 : (rollingStd prices window).getD i 0 * num_std = 0 := by linarith
        rcases mul_eq_zero.mp h0 with h1 | h1
        · exact Or.inr h1
        · exact Or.inl h1
      · intro h
        rcases h with h1 | h1 <;> rw [h1] <;> ring

/-- C7 counterexample: at `prices = [0, 1]`, `window = 2`, `num_std = 0`
the upper band equals the SMA even though the rolling standard deviation
is `1/2 ≠ 0` — equality does not force a zero standard deviation. -/
theorem bollinger_equal_bands_nonzero_std :
    (calculate_bollinger_bands [0, 1] 2 0).1
        = (calculate_bollinger_bands [0, 1] 2 0).2.1
      ∧ (rollingStd [0, 1] 2).getD 0 0 ≠ 0 := by
  have hsma : calculate_sma ([0, 1] : List ℝ) 2 = [1/2] := by
    norm_num [calculate_sma, convolveValid, List.range_succ]
  have hstd : rollingStd ([0, 1] : List ℝ) 2 = [npStd [0, 1]] := by
    norm_num [rollingStd, List.range_succ]
  constructor
  · rw [calculate_bollinger_bands, if_neg (by norm_num), hsma, hstd]
    norm_num
  · have hv : mean (([0, 1] : List ℝ).map fun v => (v - mean [0, 1]) ^ 2)
        = 1/4 := by
      norm_num [mean]
    have hs4 : npStd [0, 1] = Real.sqrt (1/4) := by rw [npStd, hv]
    have h0 : (rollingStd [0, 1] 2).getD 0 0 = npStd [0, 1] := by
      rw [hstd]
      rfl
    rw [h0, hs4]
    exact ne_of_gt (Real.sqrt_pos.mpr (by norm_num))

section CorrelationHelpers

lemma zipWith_swap {β γ δ : Type} (f : β → γ → δ) :
    ∀ (a : List β) (b : List γ),
      List.zipWith f a b = List.zipWith (fun y x => f x y) b a := by
  intro a
  induction a with
  | nil => intro b; cases b <;> rfl
  | cons x xs ih =>
    intro b
    cases b with
    | nil => rfl
    | cons y ys => simp [ih]

lemma zipWith_self_eq_map {β γ : Type} (f : β → β → γ) :
    ∀ l : List β, List.zipWith f l l = l.map fun a => f a a := by
  intro l
  induction l with
  | nil => rfl
  | cons x xs ih => simp [ih]

lemma covS_comm (x y : List ℝ) (h : x.length = y.length) :
    covS x y = covS y x := by
  rw [covS, covS, h]
  congr 1
  rw [zipWith_swap]
  have hfun : (fun (b : ℝ) (a : ℝ) => (a - meanR x) * (b - meanR y))
      = fun a b => (a - meanR y) * (b - meanR x) := by
    funext a b
    ring
  rw [hfun]

lemma covS_self_nonneg (x : List ℝ) : 0 ≤ covS x x := by
  rw [covS, zipWith_self_eq_map]
  rcases Nat.eq_zero_or_pos x.length with h0 | hpos
  · obtain rfl : x = [] := List.length_eq_zero.mp h0
    simp
  · apply div_nonneg
    · apply List.sum_nonneg
      intro a ha
      rw [List.mem_map] at ha
      obtain ⟨b, _, rfl⟩ := ha
      exact mul_self_nonneg _
    · have : (1 : ℝ) ≤ (x.length : ℝ) := by exact_mod_cast hpos
      linarith

lemma corrcoef01_self (x : List ℝ) (h : covS x x ≠ 0) : corrcoef01 x x = 1 := by
  rw [corrcoef01, Real.mul_self_sqrt (covS_self_nonneg x), div_self h]
  norm_num

lemma corrcoef01_comm (x y : List ℝ) (h : x.length = y.length) :
    corrcoef01 x y = corrcoef01 y x := by
  rw [corrcoef01, corrcoef01, covS_comm x y h, mul_comm]

lemma minLength_le (pd : List (String × List ℝ)) (p : String × List ℝ)
    (hp : p ∈ pd) : minLength pd ≤ p.2.length := by
  rw [minLength]
  cases hmin : (pd.map fun q => q.2.length).min? with
  | none =>
    rw [List.min?_eq_none_iff, List.map_eq_nil] at hmin
    subst hmin
    exact absurd hp (List.not_mem_nil p)
  | some m =>
    obtain ⟨_, hle⟩ := (List.min?_eq_some_iff (fun a => le_refl a)
      (fun a b => min_choice a b) (fun a b c => le_min_iff)).mp hmin
    exact hle _ (List.mem_map_of_mem _ hp)

lemma dailyReturns_length (t : List ℝ) :
    (dailyReturns t).length = t.length - 1 := by
  rw [dailyReturns, List.length_zipWith, List.length_drop]
  omega

lemma alignedReturns_uniform_length (stocks : List (String × List ℝ))
    (symbols : List String) (ar : List (String × List ℝ))
    (har : alignedReturns stocks symbols = some ar) :
    ∀ p ∈ ar, ∀ q ∈ ar, p.2.length = q.2.length := by
  rw [alignedReturns] at har
  obtain ⟨pd, hpd, rfl⟩ := Option.map_eq_some'.mp har
  intro p hp q hq
  rw [List.mem_map] at hp hq
  obtain ⟨p0, hp0, rfl⟩ := hp
  obtain ⟨q0, hq0, rfl⟩ := hq
  have h1 := minLength_le pd p0 hp0
  have h2 := minLength_le pd q0 hq0
  rw [dailyReturns_length, dailyReturns_length, List.length_drop,
    List.length_drop]
  omega

lemma corrMatrix_getD (ar : List (String × List ℝ)) (i j : ℕ)
    (hi : i < ar.length) (hj : j < ar.length) :
    ((corrMatrix ar).getD i []).getD j 0
      = corrcoef01 (ar.getD i ("", [])).2 (ar.getD j ("", [])).2 := by
  rw [corrMatrix, getD_range_map _ _ _ _ hi, getD_range_map _ _ _ _ hj]

lemma corrMatrix_getD_oob (ar : List (String × List ℝ)) (i j : ℕ)
    (h : ar.length ≤ i ∨ ar.length ≤ j) :
    ((corrMatrix ar).getD i []).getD j 0 = 0 := by
  have hlen : (corrMatrix ar).length = ar.length := by simp [corrMatrix]
  rcases h with h | h
  · rw [List.getD_eq_default (corrMatrix ar) [] (by rw [hlen]; exact h)]
    rfl
  · by_cases hi : i < ar.length
    · rw [corrMatrix, getD_range_map _ _ _ _ hi,
        List.getD_eq_default _ _ (by simpa using h)]
    · rw [List.getD_eq_default (corrMatrix ar) [] (by rw [hlen]; omega)]
      rfl

end CorrelationHelpers

/-- C8: for at least two distinct requested symbols, all present with data
and with non-degenerate aligned return series, the correlation computation
returns the ordered symbol list together with a square matrix that is
symmetric and has every diagonal entry exactly 1.  (Positive prices keep
the exact division in `dailyReturns` faithful to the source, which would
produce IEEE infinities on a zero price.) -/
theorem corr_matrix_symm_diag (stocks : List (String × List ℝ))
    (symbols : List String) (h2 : 2 ≤ symbols.length) (hnd : symbols.Nodup)
    (hpos : ∀ pr ∈ stocks, ∀ v ∈ pr.2, (0 : ℝ) < v)
    (ar : List (String × List ℝ))
    (har : alignedReturns stocks symbols = some ar)
    (hvar : ∀ p ∈ ar, covS p.2 p.2 ≠ 0) :
    calculate_correlation_matrix stocks symbols
        = some (ar.map fun p => p.1, corrMatrix ar)
      ∧ (corrMatrix ar).length = ar.length
      ∧ (∀ row ∈ corrMatrix ar, row.length = ar.length)
      ∧ (∀ i j, ((corrMatrix ar).getD i []).getD j 0
          = ((corrMatrix ar).getD j []).getD i 0)
      ∧ (∀ i, i < ar.length → ((corrMatrix ar).getD i []).getD i 0 = 1) := by
  refine ⟨?_, by simp [corrMatrix], ?_, ?_, ?_⟩
  · rw [calculate_correlation_matrix, if_neg (by omega), har]
  · intro row hrow
    rw [corrMatrix, List.mem_map] at hrow
    obtain ⟨i, _, rfl⟩ := hrow
    simp
  · intro i j
    by_cases hi : i < ar.length
    · by_cases hj : j < ar.length
      · have hmi : ar.getD i ("", []) ∈ ar := by
          rw [List.getD_eq_getElem ar ("", []) hi]
          exact List.getElem_mem hi
        have hmj : ar.getD j ("", []) ∈ ar := by
          rw [List.getD_eq_getElem ar ("", []) hj]
          exact List.getElem_mem hj
        rw [corrMatrix_getD ar i j hi hj, corrMatrix_getD ar j i hj hi]
        exact corrcoef01_comm _ _
          (alignedReturns_uniform_length stocks symbols ar har _ hmi _ hmj)
      · rw [corrMatrix_getD_oob ar i j (Or.inr (by omega)),
          corrMatrix_getD_oob ar j i (Or.inl (by omega))]
    · rw [corrMatrix_getD_oob ar i j (Or.inl (by omega)),
        corrMatrix_getD_oob ar j i (Or.inr (by omega))]
  · intro i hi
    rw [corrMatrix_getD ar i i hi hi]
    apply corrcoef01_self
    apply hvar
    rw [List.getD_eq_getElem ar ("", []) hi]
    exact List.getElem_mem hi

/-- C8 witness: two three-day series with non-degenerate returns give a
correlation matrix whose leading diagonal entry is exactly 1. -/
theorem corr_matrix_symm_diag_witness :
    ((corrMatrix [("A", [1, -1/2]), ("B", [-1/2, 1])]).getD 0 []).getD 0 0 = 1 :=
  (corr_matrix_symm_diag [("A", [1, 2, 1]), ("B", [2, 1, 2])] ["A", "B"]
    (by norm_num) (by decide)
    (by
      rintro pr hpr v hv
      rcases List.mem_cons.mp hpr with rfl | hpr2
      · simp at hv
        rcases hv with rfl | rfl | rfl <;> norm_num
      · rcases List.mem_cons.mp hpr2 with rfl | hpr3
        · simp at hv
          rcases hv with rfl | rfl | rfl <;> norm_num
        · exact absurd hpr3 (List.not_mem_nil pr))
    [("A", [1, -1/2]), ("B", [-1/2, 1])]
    (by norm_num [alignedReturns, firstPass, stockLookup, minLength,
      dailyReturns, List.find?, List.min?,
      show (("A" : String) == "A") = true from rfl,
      show (("A" : String) == "B") = false from rfl,
      show (("B" : String) == "B") = true from rfl])
    (by
      intro p hp
      rcases List.mem_cons.mp hp with rfl | hp2
      · norm_num [covS, meanR]
      · rcases List.mem_cons.mp hp2 with rfl | hp3
        · norm_num [covS, meanR]
        · exact absurd hp3 (List.not_mem_nil p))).2.2.2.2 0 (by norm_num)

lemma firstPass_none (stocks : List (String × List ℝ)) :
    ∀ symbols : List String,
      (∃ s ∈ symbols, stockLookup stocks s = none
        ∨ stockLookup stocks s = some []) →
      firstPass stocks symbols = none := by
  intro symbols
  induction symbols with
  | nil =>
    rintro ⟨s, hs, _⟩
    exact absurd hs (List.not_mem_nil s)
  | cons t rest ih =>
    rintro ⟨s, hs, hbad⟩
    rcases List.mem_cons.mp hs with rfl | hmem
    · rcases hbad with hb | hb
      · rw [firstPass, hb]
      · rw [firstPass, hb]
        rfl
    · cases hlk : stockLookup stocks t with
      | none => rw [firstPass, hlk]
      | some ps =>
        rw [firstPass, hlk]
        dsimp only
        by_cases hps : ps.length = 0
        · rw [if_pos hps]
        · rw [if_neg hps, ih ⟨s, hmem, hbad⟩]
          rfl

/-- C9: whenever some requested symbol is missing from the stock store or
has an empty price series, the correlation computation aborts with the
failure value (`None`) and returns no matrix. -/
theorem corr_missing_symbol (stocks : List (String × List ℝ))
    (symbols : List String)
    (h : ∃ s ∈ symbols, stockLookup stocks s = none
      ∨ stockLookup stocks s = some []) :
    calculate_correlation_matrix stocks symbols = none := by
  rw [calculate_correlation_matrix]
  by_cases h2 : symbols.length < 2
  · rw [if_pos h2]
  · rw [if_neg h2, alignedReturns, firstPass_none stocks symbols h]
    rfl

/-- C9 witness: requesting the absent symbol Z aborts the computation. -/
theorem corr_missing_symbol_witness :
    calculate_correlation_matrix [("A", [1, 2])] ["A", "Z"] = none :=
  corr_missing_symbol [("A", [1, 2])] ["A", "Z"]
    ⟨"Z", by norm_num, Or.inl rfl⟩

/-- C10: with fewer than two requested symbols the correlation computation
returns the failure value (`None`), producing neither a symbol list nor a
matrix — an edge case the spec leaves unstated. -/
theorem corr_needs_two_symbols (stocks : List (String × List ℝ))
    (symbols : List String) (h : symbols.length < 2) :
    calculate_correlation_matrix stocks symbols = none := by
  rw [calculate_correlation_matrix, if_pos h]

/-- C10 witness: a single requested symbol yields the failure value. -/
theorem corr_needs_two_symbols_witness :
    calculate_correlation_matrix [("A", [1, 2])] ["A"] = none :=
  corr_needs_two_symbols [("A", [1, 2])] ["A"] (by norm_num)

/-- C7 witness: the amended theorem instantiated at `prices = [0, 1, 4]`,
`window = 2`, `num_std = 2`. -/
theorem bollinger_band_order_witness :
    (0 : ℝ) ≤ 2
      ∧ (calculate_bollinger_bands [0, 1, 4] 2 2).1.length
          = (calculate_bollinger_bands [0, 1, 4] 2 2).2.1.length :=
  ⟨by norm_num,
    (bollinger_band_order [0, 1, 4] 2 2 (by norm_num) (by norm_num)
      (by norm_num)).1.1⟩
